import Mathlib

/-!
Verification development for the HELM Rust SDK (`src/sdk/rust`) and the
audit/ledger core its data contracts describe.  Data types mirror
`src/sdk/rust/src/types_gen.rs`; client behaviour mirrors
`src/sdk/rust/src/lib.rs`.  Components of the governance kernel that are
not part of the visible repository (the receipt ledger, the evidence
verifier, the approval protocol and the conformance runner) are modelled
from the specification, as indicated on each definition.
-/

set_option maxRecDepth 4000

/-- Mirrors the `ReasonCode` enum of `src/sdk/rust/src/types_gen.rs`:
the closed taxonomy of decision outcomes. -/
inductive ReasonCode where
  | Allow
  | DenyToolNotFound
  | DenySchemaMismatch
  | DenyOutputDrift
  | DenyBudgetExceeded
  | DenyApprovalRequired
  | DenyApprovalTimeout
  | DenySandboxTrap
  | DenyGasExhaustion
  | DenyTimeLimit
  | DenyMemoryLimit
  | DenyPolicyViolation
  | DenyTrustKeyRevoked
  | DenyIdempotencyDuplicate
  | ErrorInternal
deriving Repr, DecidableEq, Fintype

/-- Serialization of a `ReasonCode` to its wire string, following the
`serde(rename = ...)` attributes on the enum in `types_gen.rs`. -/
def reasonCodeToWire : ReasonCode → String
  | .Allow => "ALLOW"
  | .DenyToolNotFound => "DENY_TOOL_NOT_FOUND"
  | .DenySchemaMismatch => "DENY_SCHEMA_MISMATCH"
  | .DenyOutputDrift => "DENY_OUTPUT_DRIFT"
  | .DenyBudgetExceeded => "DENY_BUDGET_EXCEEDED"
  | .DenyApprovalRequired => "DENY_APPROVAL_REQUIRED"
  | .DenyApprovalTimeout => "DENY_APPROVAL_TIMEOUT"
  | .DenySandboxTrap => "DENY_SANDBOX_TRAP"
  | .DenyGasExhaustion => "DENY_GAS_EXHAUSTION"
  | .DenyTimeLimit => "DENY_TIME_LIMIT"
  | .DenyMemoryLimit => "DENY_MEMORY_LIMIT"
  | .DenyPolicyViolation => "DENY_POLICY_VIOLATION"
  | .DenyTrustKeyRevoked => "DENY_TRUST_KEY_REVOKED"
  | .DenyIdempotencyDuplicate => "DENY_IDEMPOTENCY_DUPLICATE"
  | .ErrorInternal => "ERROR_INTERNAL"

/-- Deserialization of a wire string to a `ReasonCode`, following the serde
derive on the enum in `types_gen.rs`: each rename string maps to its
variant, and any other string is a deserialization error (`none`). -/
def reasonCodeFromWire (s : String) : Option ReasonCode :=
  if s = "ALLOW" then some .Allow
  else if s = "DENY_TOOL_NOT_FOUND" then some .DenyToolNotFound
  else if s = "DENY_SCHEMA_MISMATCH" then some .DenySchemaMismatch
  else if s = "DENY_OUTPUT_DRIFT" then some .DenyOutputDrift
  else if s = "DENY_BUDGET_EXCEEDED" then some .DenyBudgetExceeded
  else if s = "DENY_APPROVAL_REQUIRED" then some .DenyApprovalRequired
  else if s = "DENY_APPROVAL_TIMEOUT" then some .DenyApprovalTimeout
  else if s = "DENY_SANDBOX_TRAP" then some .DenySandboxTrap
  else if s = "DENY_GAS_EXHAUSTION" then some .DenyGasExhaustion
  else if s = "DENY_TIME_LIMIT" then some .DenyTimeLimit
  else if s = "DENY_MEMORY_LIMIT" then some .DenyMemoryLimit
  else if s = "DENY_POLICY_VIOLATION" then some .DenyPolicyViolation
  else if s = "DENY_TRUST_KEY_REVOKED" then some .DenyTrustKeyRevoked
  else if s = "DENY_IDEMPOTENCY_DUPLICATE" then some .DenyIdempotencyDuplicate
  else if s = "ERROR_INTERNAL" then some .ErrorInternal
  else none

/-- Mirrors `HelmErrorDetail` of `types_gen.rs`: the error body shape
`(message, type, code, reason_code, details?)` surfaced at the boundary.
`details` is kept as an association list of key/value strings. -/
structure HelmErrorDetail where
  message : String
  error_type : String
  code : String
  reason_code : ReasonCode
  details : Option (List (String × String))
deriving Repr, DecidableEq

/-- Mirrors `HelmError` of `types_gen.rs`: the wrapper around the error body. -/
structure HelmError where
  error : HelmErrorDetail
deriving Repr, DecidableEq

/-- Mirrors `HelmApiError` of `src/sdk/rust/src/lib.rs`: the error type
returned by every client operation. -/
structure HelmApiError where
  status : Nat
  message : String
  reason_code : ReasonCode
deriving Repr, DecidableEq

/-- Parsing of an error body whose `reason_code` arrived as a raw wire
string: the serde derive on `HelmErrorDetail` in `types_gen.rs` succeeds
only when the `reason_code` string deserializes to a taxonomy variant. -/
def parseHelmError (message error_type code rawReason : String)
    (details : Option (List (String × String))) : Option HelmError :=
  (reasonCodeFromWire rawReason).map
    (fun rc => ⟨⟨message, error_type, code, rc, details⟩⟩)

/-- Mirrors `HelmClient::check` in `lib.rs`, applied to a non-success
response: a parseable error body yields its message and reason code, and
an unparseable body falls back to `"unknown error"` with `ErrorInternal`. -/
def checkFailure (status : Nat) (body : Option HelmError) : HelmApiError :=
  match body with
  | some e => ⟨status, e.error.message, e.error.reason_code⟩
  | none => ⟨status, "unknown error", .ErrorInternal⟩

/-- Outcome of an HTTP exchange as seen by a client operation in `lib.rs`:
either the transport failed (`send()` returned `Err`), or a response with a
status (success or not) and, for non-success, a possibly unparseable error
body arrived. -/
inductive HttpOutcome (α : Type) where
  | transportErr (msg : String)
  | success (value : α)
  | failure (status : Nat) (body : Option HelmError)
deriving Repr

/-- The shared result shape of every operation of `HelmClient` in `lib.rs`:
a transport error maps to status 0 with `ErrorInternal`, a non-success
response goes through `check` (`checkFailure` here), and a success response
yields its value. -/
def clientCall {α : Type} (o : HttpOutcome α) : Except HelmApiError α :=
  match o with
  | .transportErr msg => .error ⟨0, msg, .ErrorInternal⟩
  | .success v => .ok v
  | .failure status body => .error (checkFailure status body)

/-- Mirrors Rust `str::trim_end_matches('/')` as used by
`HelmClient::new` in `lib.rs`: removes every trailing `'/'`. -/
def trimEndSlashes (s : String) : String :=
  String.mk ((s.data.reverse.dropWhile (fun c => c = '/')).reverse)

/-- Mirrors the `base_url` field of `HelmClient` in `lib.rs`. -/
structure HelmClientState where
  base_url : String
deriving Repr, DecidableEq

/-- Mirrors `HelmClient::new` in `lib.rs`: stores the base URL with all
trailing slashes trimmed. -/
def newClient (base : String) : HelmClientState :=
  ⟨trimEndSlashes base⟩

/-- Mirrors `HelmClient::url` in `lib.rs`: concatenates the stored base
with the request path. -/
def urlOf (cl : HelmClientState) (path : String) : String :=
  cl.base_url ++ path

/-- Modelled from the spec: the canonical byte framing used by the ledger
core for one field of a receipt's canonical encoding (spec section 3,
"canonical byte encoding").  A field is framed as a unary length run of
`'#'`, a `':'` separator, a fixed `'F'` marker and then the payload, which
makes the framing self-delimiting for any payload. -/
def encB (x : List Char) : List Char :=
  List.replicate x.length '#' ++ ':' :: 'F' :: x

/-- Length of the run of leading `'#'` characters. -/
def leadCount (l : List Char) : Nat :=
  (l.takeWhile (fun c => c = '#')).length

/-- Modelled from the spec: reads one framed field back off the wire,
returning the payload and the remaining bytes. -/
def decodeField (l : List Char) : Option (List Char × List Char) :=
  match l.drop (leadCount l) with
  | c1 :: c2 :: t =>
    if c1 = ':' ∧ c2 = 'F' then some (t.take (leadCount l), t.drop (leadCount l))
    else none
  | _ => none

/-- Mirrors the `Receipt` struct of `src/sdk/rust/src/types_gen.rs`:
one immutable record of a governed decision. -/
structure Receipt where
  receipt_id : String
  decision_id : String
  effect_id : String
  status : String
  reason_code : String
  output_hash : String
  blob_hash : String
  prev_hash : String
  lamport_clock : Int
  signature : String
  timestamp : String
  principal : String
deriving Repr, DecidableEq

/-- Modelled from the spec: canonical encoding of the `lamport_clock`
field (an integer) as bytes, a sign marker followed by a unary magnitude. -/
def intEnc (n : Int) : List Char :=
  (if n < 0 then ['n'] else ['p']) ++ List.replicate n.natAbs '1'

/-- Modelled from the spec: the ordered list of content fields of a
receipt (every field except `signature`), each as raw bytes, in the field
order of the `Receipt` struct. -/
def fieldsOf (r : Receipt) : List (List Char) :=
  [r.receipt_id.data, r.decision_id.data, r.effect_id.data, r.status.data,
   r.reason_code.data, r.output_hash.data, r.blob_hash.data, r.prev_hash.data,
   intEnc r.lamport_clock, r.timestamp.data, r.principal.data]

/-- Modelled from the spec: concatenation of framed fields. -/
def blocks : List (List Char) → List Char
  | [] => []
  | x :: t => encB x ++ blocks t

/-- Modelled from the spec: the canonical byte encoding of a receipt's
content (all fields except the signature), over which the issuing
authority signs (spec section 3, "signature (over the receipt's canonical
byte encoding)"). -/
def contentBytes (r : Receipt) : List Char :=
  blocks (fieldsOf r)

/-- Modelled from the spec: the content digest of a receipt, used as the
`prev_hash` back-link of its successor.  The digest is idealized as the
injective canonical encoding itself (a perfect, collision-free hash). -/
def contentHash (r : Receipt) : String :=
  String.mk (contentBytes r)

/-- Modelled from the spec: the issuing authority's signature over a
canonical content encoding, keyed by the principal.  Idealized as an
injective pairing of key and content. -/
def signBytes (key : List Char) (content : List Char) : List Char :=
  encB key ++ content

/-- Modelled from the spec: the signature bytes a well-signed receipt must
carry, recomputed from its own content. -/
def sigBytes (r : Receipt) : List Char :=
  signBytes r.principal.data (contentBytes r)

/-- Modelled from the spec: the verifier's per-receipt signature check
(spec section 4.4 (iii)): the recorded signature must equal the signature
over the receipt's canonical encoding under the recorded principal's key. -/
def sigOkB (r : Receipt) : Bool :=
  decide (r.signature.data = sigBytes r)

/-- Modelled from the spec: the serialized form of one receipt inside an
exported evidence bundle: the framed content fields followed by the framed
signature field. -/
def serializeReceipt (r : Receipt) : List Char :=
  blocks (fieldsOf r ++ [r.signature.data])

/-- Modelled from the spec: decodes the integer encoding of the
`lamport_clock` field. -/
def intDec (l : List Char) : Option Int :=
  match l with
  | c :: t =>
    if c = 'p' then some (Int.ofNat t.length)
    else if c = 'n' then some (-(Int.ofNat t.length))
    else none
  | [] => none

/-- Modelled from the spec: reads `n` framed fields off the wire,
requiring that no bytes remain afterwards. -/
def decodeFields : Nat → List Char → Option (List (List Char))
  | 0, [] => some []
  | 0, _ :: _ => none
  | n + 1, b =>
    match decodeField b with
    | some (f, rest) => (decodeFields n rest).map (fun fs => f :: fs)
    | none => none

/-- Modelled from the spec: decodes a serialized receipt, reading the
eleven framed content fields and the framed signature and requiring that
no bytes remain. -/
def decodeReceipt (b : List Char) : Option Receipt :=
  match decodeFields 12 b with
  | some [f1, f2, f3, f4, f5, f6, f7, f8, f9, f10, f11, f12] =>
    match intDec f9 with
    | some clk => some ⟨String.mk f1, String.mk f2, String.mk f3, String.mk f4,
        String.mk f5, String.mk f6, String.mk f7, String.mk f8,
        clk, String.mk f12, String.mk f10, String.mk f11⟩
    | none => none
  | _ => none

/-- Modelled from the spec: the verifier's parse of one serialized receipt,
validating that the decoded receipt re-serializes to exactly the input
bytes. -/
def parseReceipt (b : List Char) : Option Receipt :=
  match decodeReceipt b with
  | some r => if serializeReceipt r = b then some r else none
  | none => none

/-- Modelled from the spec: the defined genesis value carried as
`prev_hash` by the first receipt of a chain (spec section 3). -/
def GENESIS : String := "GENESIS"

/-- Modelled from the spec: the caller-supplied body of a decision about
to be finalized into a receipt — every `Receipt` field except the three
the ledger computes (`prev_hash`, `lamport_clock`, `signature`). -/
structure ReceiptBody where
  receipt_id : String
  decision_id : String
  effect_id : String
  status : String
  reason_code : String
  output_hash : String
  blob_hash : String
  timestamp : String
  principal : String
deriving Repr, DecidableEq

/-- Modelled from the spec (section 4.2, `append`): finalizes a receipt
against the current chain, stored newest first.  `prev_hash` is the
content hash of the current tail (or the genesis constant for an empty
chain), `lamport_clock` is the tail's clock plus one (or 0), and the
signature is computed over the canonical content encoding under the
principal's key. -/
def mkNext (c : List Receipt) (b : ReceiptBody) : Receipt :=
  let prev : String := match c with
    | [] => GENESIS
    | t :: _ => contentHash t
  let clk : Int := match c with
    | [] => 0
    | t :: _ => t.lamport_clock + 1
  { receipt_id := b.receipt_id
    decision_id := b.decision_id
    effect_id := b.effect_id
    status := b.status
    reason_code := b.reason_code
    output_hash := b.output_hash
    blob_hash := b.blob_hash
    prev_hash := prev
    lamport_clock := clk
    signature := String.mk (signBytes b.principal.data (blocks
      [b.receipt_id.data, b.decision_id.data, b.effect_id.data, b.status.data,
       b.reason_code.data, b.output_hash.data, b.blob_hash.data, prev.data,
       intEnc clk, b.timestamp.data, b.principal.data]))
    timestamp := b.timestamp
    principal := b.principal }

/-- Modelled from the spec: the chains reachable from the empty chain by a
sequence of `append` operations; the list is stored newest first. -/
inductive Reachable : List Receipt → Prop where
  | nil : Reachable []
  | snoc (c : List Receipt) (b : ReceiptBody) :
      Reachable c → Reachable (mkNext c b :: c)

/-- Modelled from the spec: the hash-link and clock relation between a
receipt and its immediate successor in one chain (spec section 3,
`Receipt` invariant). -/
def linkRel (a b : Receipt) : Prop :=
  b.prev_hash = contentHash a ∧ a.lamport_clock < b.lamport_clock

instance (a b : Receipt) : Decidable (linkRel a b) := by
  unfold linkRel
  infer_instance

/-- Mirrors `VerificationResult` of `types_gen.rs`: verdict, per-check
outcomes (as an association list) and error strings. -/
structure VerificationResult where
  verdict : String
  checks : List (String × String)
  errors : List String
deriving Repr, DecidableEq

/-- Modelled from the spec: the error string the verifier emits for a
violation at receipt index `i`, identifying the receipt so a human can
locate the break (spec section 4.4). -/
def errAt (i : Nat) (msg : String) : String :=
  "receipt " ++ toString i ++ ": " ++ msg

/-- Modelled from the spec: export of a chain (stored newest first) into
an evidence bundle: the chronological sequence of serialized receipts
(spec section 4.4, `export`). -/
def exportBundle (c : List Receipt) : List (List Char) :=
  c.reverse.map serializeReceipt

/-- Modelled from the spec: parses every serialized receipt of a bundle,
failing if any entry is malformed. -/
def allParsed : List (List Char) → Option (List Receipt)
  | [] => some []
  | b :: t =>
    match parseReceipt b, allParsed t with
    | some r, some rs => some (r :: rs)
    | _, _ => none

/-- Modelled from the spec: one malformed-entry error per unparseable
serialized receipt, indexed from `i`. -/
def parseErrs (i : Nat) : List (List Char) → List String
  | [] => []
  | b :: t =>
    (match parseReceipt b with
      | some _ => []
      | none => [errAt i "malformed"]) ++ parseErrs (i + 1) t

/-- Modelled from the spec: the genesis check on the first receipt of a
chronological chain (spec section 4.4 (i)). -/
def genErr : List Receipt → List String
  | [] => []
  | r :: _ => if r.prev_hash = GENESIS then [] else [errAt 0 "genesis"]

/-- Modelled from the spec: link-integrity and clock-monotonicity errors
along a chronological chain, `prev` being the receipt at index `i - 1`
(spec section 4.4 (i) and (ii)). -/
def linkErrs (i : Nat) (prev : Receipt) : List Receipt → List String
  | [] => []
  | r :: t =>
    (if r.prev_hash = contentHash prev then [] else [errAt i "link"]) ++
      (if prev.lamport_clock < r.lamport_clock then [] else [errAt i "clock"]) ++
      linkErrs (i + 1) r t

/-- Modelled from the spec: link and clock errors of a whole chronological
chain. -/
def linkErrsTop : List Receipt → List String
  | [] => []
  | r :: t => linkErrs 1 r t

/-- Modelled from the spec: one signature error per receipt whose recorded
signature does not verify (spec section 4.4 (iii)). -/
def sigErrs (i : Nat) : List Receipt → List String
  | [] => []
  | r :: t => (if sigOkB r then [] else [errAt i "signature"]) ++ sigErrs (i + 1) t

/-- Modelled from the spec: all integrity errors of a parsed chronological
chain. -/
def chainErrs (rs : List Receipt) : List String :=
  genErr rs ++ linkErrsTop rs ++ sigErrs 0 rs

/-- Modelled from the spec (section 4.4, `verify`): offline verification
of an evidence bundle.  Every serialized receipt must parse back, the
hash links must be unbroken from genesis, clocks strictly increasing and
every signature valid; the verdict is `pass` iff no check failed. -/
def verifyBundle (bs : List (List Char)) : VerificationResult :=
  match allParsed bs with
  | none =>
    { verdict := "fail"
      checks := [("parse", "fail")]
      errors := parseErrs 0 bs }
  | some rs =>
    let es := chainErrs rs
    { verdict := if es = [] then "pass" else "fail"
      checks := [("link_integrity", if genErr rs ++ linkErrsTop rs = [] then "pass" else "fail"),
                 ("signatures", if sigErrs 0 rs = [] then "pass" else "fail")]
      errors := es }

/-- Mirrors `ApprovalRequest` of `types_gen.rs`: the approval submission
carrying the intent digest, the approver's signature and public key, and
an optional challenge response. -/
structure ApprovalRequest where
  intent_hash : String
  signature_b64 : String
  public_key_b64 : String
  challenge_response : Option String
deriving Repr, DecidableEq

/-- Modelled from the spec: the approver's signature over the exact
`intent_hash` bytes under a public key, idealized as an injective pairing
(spec section 4.3 (a)). -/
def approvalSign (pub intent : String) : String :=
  String.mk (signBytes pub.data intent.data)

/-- Modelled from the spec: the signature check of the approval protocol:
the submitted signature must verify against the claimed public key over
the submitted intent hash. -/
def sigVerifies (req : ApprovalRequest) : Bool :=
  decide (req.signature_b64 = approvalSign req.public_key_b64 req.intent_hash)

/-- Modelled from the spec (section 4.3): the state machine states of one
pending decision. -/
inductive ApprovalStatus where
  | pendingApproval
  | approved
  | timedOut
  | rejected
deriving Repr, DecidableEq

/-- Modelled from the spec: the immutable data of a pending high-risk
decision: the intent digest awaiting approval, its deadline, the
outstanding server-issued challenge if one was issued, and the receipt
body to finalize with. -/
structure PendingDecision where
  intent_hash : String
  deadline : Nat
  challenge : Option String
  body : ReceiptBody
deriving Repr, DecidableEq

/-- Modelled from the spec: the mutable state of one pending decision:
its protocol status and the receipt produced at resolution, if any. -/
structure DecisionState where
  info : PendingDecision
  status : ApprovalStatus
  receipt : Option Receipt
deriving Repr, DecidableEq

/-- Modelled from the spec (section 4.3 (b)): if a challenge was issued,
the submission's `challenge_response` must match it. -/
def challengeOk (d : PendingDecision) (req : ApprovalRequest) : Bool :=
  match d.challenge with
  | none => true
  | some chal => decide (req.challenge_response = some chal)

/-- Modelled from the spec: the events that can resolve a pending
decision: an approval submission at a given time, or the deadline timer
firing. -/
inductive ApprovalEvent where
  | submit (req : ApprovalRequest) (now : Nat)
  | timerFire (now : Nat)
deriving Repr

/-- Modelled from the spec: resolving a decision finalizes exactly one
receipt through `ReceiptChain.append` with the resolution's reason code
(spec section 4.3). -/
def finalizeWith (chain : List Receipt) (d : DecisionState)
    (st : ApprovalStatus) (code : String) : DecisionState :=
  { d with
    status := st
    receipt := some (mkNext chain
      { d.info.body with
        reason_code := code
        status := if code = "ALLOW" then "allowed" else "denied" }) }

/-- Modelled from the spec (section 4.3): one transition of the approval
state machine.  A submission after the deadline times out regardless of
validity; a valid submission in time approves; an invalid one rejects; a
timer firing past the deadline times out; resolved decisions never change
again. -/
def approvalStep (chain : List Receipt) (d : DecisionState)
    (e : ApprovalEvent) : DecisionState :=
  match d.status with
  | .pendingApproval =>
    match e with
    | .submit req now =>
      if d.info.deadline < now then
        finalizeWith chain d .timedOut "DENY_APPROVAL_TIMEOUT"
      else if sigVerifies req = true ∧ req.intent_hash = d.info.intent_hash ∧
          challengeOk d.info req = true then
        finalizeWith chain d .approved "ALLOW"
      else
        finalizeWith chain d .rejected "DENY_APPROVAL_REQUIRED"
    | .timerFire now =>
      if d.info.deadline < now then
        finalizeWith chain d .timedOut "DENY_APPROVAL_TIMEOUT"
      else d
  | _ => d

/-- Mirrors `ConformanceResult` of `types_gen.rs`, with `details` as an
association list. -/
structure ConformanceResult where
  report_id : String
  level : String
  verdict : String
  gates : Nat
  failed : Nat
  details : Option (List (String × String))
deriving Repr, DecidableEq

/-- Modelled from the spec (section 4.5): the conformance runner executes
the registered gates for a level in their fixed order and aggregates a
report: `gates` counts all gates run, `failed` counts the unsatisfied
ones, and the verdict is pass exactly when nothing failed. -/
def runGates (report_id level : String) (gateResults : List (String × Bool)) :
    ConformanceResult :=
  let failedCount := (gateResults.filter (fun g => g.2 = false)).length
  { report_id := report_id
    level := level
    verdict := if failedCount = 0 then "pass" else "fail"
    gates := gateResults.length
    failed := failedCount
    details := some (gateResults.map (fun g => (g.1, if g.2 then "pass" else "fail"))) }

/-- A concrete decision body, used to exercise the ledger. -/
def sampleBody1 : ReceiptBody :=
  ⟨"r1", "d1", "e1", "allowed", "ALLOW", "oh1", "bh1", "t1", "alice"⟩

/-- A second concrete decision body. -/
def sampleBody2 : ReceiptBody :=
  ⟨"r2", "d2", "e2", "denied", "DENY_BUDGET_EXCEEDED", "oh2", "bh2", "t2", "alice"⟩

/-- A one-receipt chain produced by a single append. -/
def sampleChain1 : List Receipt := [mkNext [] sampleBody1]

/-- A two-receipt chain produced by two appends. -/
def sampleChain2 : List Receipt := mkNext sampleChain1 sampleBody2 :: sampleChain1

/-- A concrete approval submission whose signature verifies. -/
def sampleRequest : ApprovalRequest :=
  ⟨"INTENT", approvalSign "KEY" "INTENT", "KEY", none⟩

/-- A concrete pending decision with deadline 10 and no challenge. -/
def samplePending : DecisionState :=
  ⟨⟨"INTENT", 10, none, sampleBody1⟩, .pendingApproval, none⟩

theorem takeWhile_replicate_cons (n : Nat) (t : List Char) :
    (List.replicate n '#' ++ ':' :: t).takeWhile (fun c => c = '#') =
      List.replicate n '#' := by
  induction n with
  | zero => simp [List.takeWhile]
  | succ k ih => simp [List.replicate_succ, List.takeWhile, ih]

theorem leadCount_encB (x u : List Char) : leadCount (encB x ++ u) = x.length := by
  unfold leadCount encB
  rw [List.append_assoc, List.cons_append, takeWhile_replicate_cons,
    List.length_replicate]

/-- Decoding inverts framing: `decodeField` on a framed field followed by
anything returns exactly the payload and the rest. -/
theorem decodeField_encB (x u : List Char) :
    decodeField (encB x ++ u) = some (x, u) := by
  unfold decodeField
  rw [leadCount_encB]
  have hdrop : (encB x ++ u).drop x.length = ':' :: 'F' :: (x ++ u) := by
    unfold encB
    rw [List.append_assoc, List.cons_append]
    have h := List.drop_left (List.replicate x.length '#') (':' :: 'F' :: x ++ u)
    rw [List.length_replicate] at h
    exact h
  rw [hdrop]
  simp [List.take_left, List.drop_left]

/-- Framed fields concatenate injectively. -/
theorem encB_append_inj {x y u v : List Char} (h : encB x ++ u = encB y ++ v) :
    x = y ∧ u = v := by
  have hx := decodeField_encB x u
  have hy := decodeField_encB y v
  rw [h, hy] at hx
  cases hx
  exact ⟨rfl, rfl⟩

theorem encB_inj {x y : List Char} (h : encB x = encB y) : x = y := by
  have : encB x ++ [] = encB y ++ [] := by simp [h]
  exact (encB_append_inj this).1

theorem intEnc_inj {m n : Int} (h : intEnc m = intEnc n) : m = n := by
  unfold intEnc at h
  by_cases hm : m < 0 <;> by_cases hn : n < 0 <;> simp [hm, hn] at h
  · omega
  · omega

theorem blocks_inj {xs ys : List (List Char)} (hlen : xs.length = ys.length)
    (h : blocks xs = blocks ys) : xs = ys := by
  induction xs generalizing ys with
  | nil => cases ys with
    | nil => rfl
    | cons y yt => simp at hlen
  | cons x xt ih =>
    cases ys with
    | nil => simp at hlen
    | cons y yt =>
      simp only [blocks] at h
      obtain ⟨hx, ht⟩ := encB_append_inj h
      simp only [List.length_cons, Nat.succ.injEq] at hlen
      rw [hx, ih hlen ht]

theorem intDec_intEnc (n : Int) : intDec (intEnc n) = some n := by
  by_cases h : n < 0
  · simp [intDec, intEnc, h]
    rw [abs_of_neg h, neg_neg]
  · simp [intDec, intEnc, h]
    omega

theorem decodeFields_blocks (xs : List (List Char)) :
    decodeFields xs.length (blocks xs) = some xs := by
  induction xs with
  | nil => rfl
  | cons x t ih =>
    simp only [List.length_cons, blocks, decodeFields, decodeField_encB, ih,
      Option.map_some']

theorem decodeReceipt_serialize (r : Receipt) :
    decodeReceipt (serializeReceipt r) = some r := by
  have h12 : (fieldsOf r ++ [r.signature.data]).length = 12 := by
    simp [fieldsOf]
  have hdf : decodeFields 12 (serializeReceipt r) =
      some (fieldsOf r ++ [r.signature.data]) := by
    rw [serializeReceipt, ← h12]
    exact decodeFields_blocks _
  unfold decodeReceipt
  rw [hdf]
  simp only [fieldsOf, List.cons_append, List.nil_append, intDec_intEnc]

theorem parseReceipt_serialize (r : Receipt) :
    parseReceipt (serializeReceipt r) = some r := by
  unfold parseReceipt
  rw [decodeReceipt_serialize]
  simp

theorem parseReceipt_sound {b : List Char} {r : Receipt}
    (h : parseReceipt b = some r) : serializeReceipt r = b := by
  unfold parseReceipt at h
  split at h
  · split at h
    · cases h
      assumption
    · cases h
  · cases h

/-- A freshly appended receipt is well signed. -/
theorem sigOkB_mkNext (c : List Receipt) (b : ReceiptBody) :
    sigOkB (mkNext c b) = true := by
  simp only [sigOkB, decide_eq_true_eq, mkNext, sigBytes, contentBytes, fieldsOf]

/-- Master invariant of append-produced chains (stored newest first):
consecutive receipts are hash-linked with strictly increasing clocks,
every receipt is well signed, and the oldest receipt carries the genesis
constant. -/
theorem reachable_inv {c : List Receipt} (h : Reachable c) :
    List.Chain' (fun a b => linkRel b a) c ∧
      (∀ r ∈ c, sigOkB r = true) ∧
      (∀ r, c.getLast? = some r → r.prev_hash = GENESIS) := by
  induction h with
  | nil => refine ⟨List.chain'_nil, ?_, ?_⟩ <;> intro r hr <;> simp at hr
  | snoc c b hc ih =>
    obtain ⟨hchain, hsig, hgen⟩ := ih
    refine ⟨?_, ?_, ?_⟩
    · cases c with
      | nil => exact List.chain'_singleton _
      | cons t rest =>
        rw [List.chain'_cons]
        refine ⟨⟨rfl, ?_⟩, hchain⟩
        simp only [mkNext]
        omega
    · intro r hr
      rcases List.mem_cons.mp hr with h1 | h2
      · rw [h1]; exact sigOkB_mkNext c b
      · exact hsig r h2
    · intro r hr
      cases c with
      | nil =>
        simp only [List.getLast?_singleton, Option.some.injEq] at hr
        rw [← hr]
        rfl
      | cons t rest =>
        rw [List.getLast?_cons_cons] at hr
        exact hgen r hr

theorem allParsed_export (l : List Receipt) :
    allParsed (l.map serializeReceipt) = some l := by
  induction l with
  | nil => rfl
  | cons r t ih => simp only [List.map_cons, allParsed, parseReceipt_serialize, ih]

theorem linkErrs_nil_of_chain {p : Receipt} {t : List Receipt} {i : Nat}
    (h : List.Chain' linkRel (p :: t)) : linkErrs i p t = [] := by
  induction t generalizing p i with
  | nil => rfl
  | cons r rest ih =>
    rw [List.chain'_cons] at h
    obtain ⟨⟨h1, h2⟩, h3⟩ := h
    simp only [linkErrs, h1, h2, if_pos, if_true, List.nil_append]
    exact ih h3

theorem sigErrs_nil {l : List Receipt} {i : Nat}
    (h : ∀ r ∈ l, sigOkB r = true) : sigErrs i l = [] := by
  induction l generalizing i with
  | nil => rfl
  | cons r t ih =>
    have hr : sigOkB r = true := h r (List.mem_cons_self r t)
    simp only [sigErrs, hr, if_true, List.nil_append]
    exact ih (fun x hx => h x (List.mem_cons_of_mem r hx))

theorem genErr_nil_of_genesis {l : List Receipt}
    (h : ∀ r, l.head? = some r → r.prev_hash = GENESIS) : genErr l = [] := by
  cases l with
  | nil => rfl
  | cons r t =>
    have := h r rfl
    simp [genErr, this]

theorem genesis_of_genErr_nil {l : List Receipt} (h : genErr l = []) :
    ∀ r, l.head? = some r → r.prev_hash = GENESIS := by
  intro r hr
  cases l with
  | nil => cases hr
  | cons x t =>
    cases hr
    by_cases hg : r.prev_hash = GENESIS
    · exact hg
    · simp [genErr, hg] at h

theorem chain_of_linkErrs_nil {p : Receipt} {t : List Receipt} {i : Nat}
    (h : linkErrs i p t = []) : List.Chain' linkRel (p :: t) := by
  induction t generalizing p i with
  | nil => exact List.chain'_singleton p
  | cons r rest ih =>
    simp only [linkErrs, List.append_eq_nil] at h
    obtain ⟨⟨h1, h2⟩, h3⟩ := h
    rw [List.chain'_cons]
    constructor
    · constructor
      · by_cases hc : r.prev_hash = contentHash p
        · exact hc
        · simp [hc] at h1
      · by_cases hc : p.lamport_clock < r.lamport_clock
        · exact hc
        · simp [hc] at h2
    · exact ih h3

theorem chainErrs_nil_of_reachable {c : List Receipt} (h : Reachable c) :
    chainErrs c.reverse = [] := by
  obtain ⟨hchain, hsig, hgen⟩ := reachable_inv h
  have hchainrev : List.Chain' linkRel c.reverse := by
    rw [List.chain'_reverse]
    exact hchain
  have hgenrev : ∀ r, c.reverse.head? = some r → r.prev_hash = GENESIS := by
    intro r hr
    rw [List.head?_reverse] at hr
    exact hgen r hr
  have h1 : genErr c.reverse = [] := genErr_nil_of_genesis hgenrev
  have h2 : linkErrsTop c.reverse = [] := by
    cases hrev : c.reverse with
    | nil => rfl
    | cons p t =>
      rw [hrev] at hchainrev
      exact linkErrs_nil_of_chain hchainrev
  have h3 : sigErrs 0 c.reverse = [] := by
    refine sigErrs_nil ?_
    intro r hr
    exact hsig r (List.mem_reverse.mp hr)
  simp [chainErrs, h1, h2, h3]

theorem encB_length (x : List Char) : (encB x).length = 2 * x.length + 2 := by
  simp [encB]
  omega

theorem encB_getElem_lt {x : List Char} {i : Nat} (h : i < x.length) :
    (encB x)[i]? = some '#' := by
  unfold encB
  rw [List.getElem?_append]
  simp [List.length_replicate, h, List.getElem?_replicate]

theorem encB_getElem_len (x : List Char) : (encB x)[x.length]? = some ':' := by
  unfold encB
  rw [List.getElem?_append]
  simp [List.length_replicate]

theorem encB_getElem_len1 (x : List Char) : (encB x)[x.length + 1]? = some 'F' := by
  unfold encB
  rw [List.getElem?_append]
  simp [List.length_replicate]

theorem append_getElem_left {l₁ l₂ : List Char} {i : Nat} (h : i < l₁.length) :
    (l₁ ++ l₂)[i]? = l₁[i]? := by
  rw [List.getElem?_append]
  simp [h]

/-- A single in-place byte change cannot alter the framed length of the
leading field: the unary length run, its separator and the fixed marker
would have to change in two places at once. -/
theorem encB_set_len {x y u v : List Char} {j : Nat} {c : Char}
    (h : (encB x ++ u).set j c = encB y ++ v) : x.length = y.length := by
  rcases Nat.lt_trichotomy x.length y.length with hlt | heq | hgt
  · exfalso
    have hx1 : (encB x ++ u)[x.length]? = some ':' := by
      rw [append_getElem_left (by rw [encB_length]; omega)]
      exact encB_getElem_len x
    have hy1 : (encB y ++ v)[x.length]? = some '#' := by
      rw [append_getElem_left (by rw [encB_length]; omega)]
      exact encB_getElem_lt hlt
    have hj : j = x.length := by
      by_contra hne
      have := List.getElem?_set_ne hne (l := encB x ++ u) (a := c)
      rw [h, hx1, hy1] at this
      simp at this
    have hx2 : (encB x ++ u)[x.length + 1]? = some 'F' := by
      rw [append_getElem_left (by rw [encB_length]; omega)]
      exact encB_getElem_len1 x
    have hset2 : ((encB x ++ u).set j c)[x.length + 1]? = some 'F' := by
      rw [List.getElem?_set_ne (by omega), hx2]
    rw [h] at hset2
    rcases Nat.lt_or_ge (x.length + 1) y.length with h2 | h2
    · rw [append_getElem_left (by rw [encB_length]; omega), encB_getElem_lt h2] at hset2
      simp at hset2
    · have h2e : x.length + 1 = y.length := by omega
      rw [append_getElem_left (by rw [encB_length]; omega), h2e, encB_getElem_len y] at hset2
      simp at hset2
  · exact heq
  · exfalso
    have hy1 : (encB y ++ v)[y.length]? = some ':' := by
      rw [append_getElem_left (by rw [encB_length]; omega)]
      exact encB_getElem_len y
    have hx1 : (encB x ++ u)[y.length]? = some '#' := by
      rw [append_getElem_left (by rw [encB_length]; omega)]
      exact encB_getElem_lt hgt
    have hj : j = y.length := by
      by_contra hne
      have := List.getElem?_set_ne hne (l := encB x ++ u) (a := c)
      rw [h, hy1, hx1] at this
      simp at this
    have hy2 : (encB y ++ v)[y.length + 1]? = some 'F' := by
      rw [append_getElem_left (by rw [encB_length]; omega)]
      exact encB_getElem_len1 y
    have hset2 : ((encB x ++ u).set j c)[y.length + 1]? = (encB x ++ u)[y.length + 1]? := by
      exact List.getElem?_set_ne (by omega)
    rw [h, hy2] at hset2
    rcases Nat.lt_or_ge (y.length + 1) x.length with h2 | h2
    · rw [append_getElem_left (by rw [encB_length]; omega), encB_getElem_lt h2] at hset2
      simp at hset2
    · have h2e : y.length + 1 = x.length := by omega
      rw [append_getElem_left (by rw [encB_length]; omega), h2e, encB_getElem_len x] at hset2
      simp at hset2

/-- A single in-place byte change to a concatenation of framed fields
leaves every field unchanged except possibly the one the changed byte
falls in. -/
theorem blocks_set_cases {xs ys : List (List Char)} {j : Nat} {c : Char}
    (hlen : xs.length = ys.length)
    (h : (blocks xs).set j c = blocks ys) :
    ∃ k, ∀ m, m ≠ k → ys.getD m [] = xs.getD m [] := by
  induction xs generalizing ys j with
  | nil =>
    cases ys with
    | nil => exact ⟨0, fun m _ => rfl⟩
    | cons y yt => simp at hlen
  | cons x xt ih =>
    cases ys with
    | nil => simp at hlen
    | cons y yt =>
      simp only [List.length_cons, Nat.succ.injEq] at hlen
      simp only [blocks] at h
      have hxy : x.length = y.length := encB_set_len h
      have hexy : (encB x).length = (encB y).length := by
        rw [encB_length, encB_length, hxy]
      rcases Nat.lt_or_ge j (encB x).length with hj | hj
      · rw [List.set_append_left _ _ hj] at h
        have hlen2 : ((encB x).set j c).length = (encB y).length := by
          rw [List.length_set]
          exact hexy
        obtain ⟨-, htail⟩ := List.append_inj h hlen2
        have hteq : yt = xt := (blocks_inj hlen.symm htail.symm)
        refine ⟨0, fun m hm => ?_⟩
        cases m with
        | zero => exact absurd rfl hm
        | succ m0 => simp [hteq]
      · rw [List.set_append_right _ _ hj] at h
        obtain ⟨hhead, htail⟩ := List.append_inj h hexy
        obtain ⟨k, hk⟩ := ih hlen htail
        have hxeq : x = y := encB_inj hhead
        refine ⟨k + 1, fun m hm => ?_⟩
        cases m with
        | zero => simp [hxeq]
        | succ m0 =>
          have : m0 ≠ k := by omega
          simpa using hk m0 this

theorem fields_append_sig_getD11 (r : Receipt) :
    (fieldsOf r ++ [r.signature.data]).getD 11 [] = r.signature.data := by
  simp [fieldsOf]

/-- Changing a single byte of a well-signed serialized receipt leaves a
receipt that can no longer satisfy the verifier's signature check: the
mutation either hits one content field (so the recorded signature no
longer matches the content) or the signature field (so the recorded
signature no longer matches the unchanged content). -/
theorem mutation_breaks_receipt {r r' : Receipt} {j : Nat} {c : Char}
    (hj : j < (serializeReceipt r).length)
    (hc : (serializeReceipt r)[j]? ≠ some c)
    (hser : serializeReceipt r' = (serializeReceipt r).set j c)
    (hsig : sigOkB r = true) : sigOkB r' = false := by
  by_contra hne
  have hsig' : sigOkB r' = true := by
    cases hb : sigOkB r' with
    | false => exact absurd hb hne
    | true => rfl
  rw [sigOkB, decide_eq_true_eq, sigBytes, signBytes, contentBytes] at hsig hsig'
  have hlen : (fieldsOf r ++ [r.signature.data]).length =
      (fieldsOf r' ++ [r'.signature.data]).length := by
    simp [fieldsOf]
  have hblocks : (blocks (fieldsOf r ++ [r.signature.data])).set j c =
      blocks (fieldsOf r' ++ [r'.signature.data]) := by
    rw [← serializeReceipt, ← serializeReceipt, ← hser]
  obtain ⟨k, hk⟩ := blocks_set_cases hlen hblocks
  have hall : fieldsOf r' = fieldsOf r ∧ r'.signature.data = r.signature.data := by
    rcases Nat.lt_or_ge k 11 with hk11 | hk11
    · have hs := hk 11 (by omega)
      rw [fields_append_sig_getD11, fields_append_sig_getD11] at hs
      rw [hs, hsig] at hsig'
      obtain ⟨hp, hf⟩ := encB_append_inj hsig'.symm
      have hfe : fieldsOf r' = fieldsOf r := blocks_inj (by simp [fieldsOf]) hf
      exact ⟨hfe, hs⟩
    · have h0 := hk 0 (by omega)
      have h1 := hk 1 (by omega)
      have h2 := hk 2 (by omega)
      have h3 := hk 3 (by omega)
      have h4 := hk 4 (by omega)
      have h5 := hk 5 (by omega)
      have h6 := hk 6 (by omega)
      have h7 := hk 7 (by omega)
      have h8 := hk 8 (by omega)
      have h9 := hk 9 (by omega)
      have h10 := hk 10 (by omega)
      simp only [fieldsOf, List.cons_append, List.nil_append, List.getD_cons_zero,
        List.getD_cons_succ] at h0 h1 h2 h3 h4 h5 h6 h7 h8 h9 h10
      have hfe : fieldsOf r' = fieldsOf r := by
        simp only [fieldsOf, h0, h1, h2, h3, h4, h5, h6, h7, h8, h9, h10]
      refine ⟨hfe, ?_⟩
      rw [hsig', hsig, hfe, h10]
  have hys : fieldsOf r' ++ [r'.signature.data] = fieldsOf r ++ [r.signature.data] := by
    rw [hall.1, hall.2]
  rw [hys] at hblocks
  have hjc : ((blocks (fieldsOf r ++ [r.signature.data])).set j c)[j]? = some c := by
    rw [List.getElem?_set_self]
    have : j < (blocks (fieldsOf r ++ [r.signature.data])).length := by
      rw [← serializeReceipt]
      exact hj
    simp [this]
  rw [hblocks] at hjc
  rw [← serializeReceipt] at hjc
  exact hc hjc

theorem sigErrs_mem {rs : List Receipt} {i k : Nat} {r : Receipt}
    (hr : rs[i]? = some r) (hs : sigOkB r = false) :
    errAt (k + i) "signature" ∈ sigErrs k rs := by
  induction rs generalizing i k with
  | nil => cases hr
  | cons x t ih =>
    cases i with
    | zero =>
      simp only [List.getElem?_cons_zero, Option.some.injEq] at hr
      rw [← hr] at hs
      simp [sigErrs, hs]
    | succ i0 =>
      simp only [List.getElem?_cons_succ] at hr
      have := ih (k := k + 1) hr
      simp only [sigErrs]
      rw [List.mem_append]
      right
      have harith : k + 1 + i0 = k + (i0 + 1) := by omega
      rw [← harith]
      exact this

theorem parseErrs_mem {bs : List (List Char)} {i k : Nat} {b : List Char}
    (hb : bs[i]? = some b) (hp : parseReceipt b = none) :
    errAt (k + i) "malformed" ∈ parseErrs k bs := by
  induction bs generalizing i k with
  | nil => cases hb
  | cons x t ih =>
    cases i with
    | zero =>
      simp only [List.getElem?_cons_zero, Option.some.injEq] at hb
      rw [← hb] at hp
      simp [parseErrs, hp]
    | succ i0 =>
      simp only [List.getElem?_cons_succ] at hb
      have := ih (k := k + 1) hb
      simp only [parseErrs]
      rw [List.mem_append]
      right
      have harith : k + 1 + i0 = k + (i0 + 1) := by omega
      rw [← harith]
      exact this

theorem allParsed_set_some {bs : List (List Char)} {rs : List Receipt}
    {i : Nat} {b : List Char} {r : Receipt}
    (hall : allParsed bs = some rs) (hp : parseReceipt b = some r) :
    allParsed (bs.set i b) = some (rs.set i r) := by
  induction bs generalizing i rs with
  | nil =>
    cases hall
    simp [allParsed]
  | cons x t ih =>
    unfold allParsed at hall
    cases hx : parseReceipt x with
    | none => rw [hx] at hall; cases hall
    | some rx =>
      rw [hx] at hall
      cases ht : allParsed t with
      | none => rw [ht] at hall; cases hall
      | some rt =>
        rw [ht] at hall
        cases hall
        cases i with
        | zero =>
          simp only [List.set_cons_zero]
          unfold allParsed
          rw [hp, ht]
        | succ i0 =>
          simp only [List.set_cons_succ]
          unfold allParsed
          rw [hx, ih ht]

theorem allParsed_set_none {bs : List (List Char)} {rs : List Receipt}
    {i : Nat} {b : List Char}
    (hall : allParsed bs = some rs) (hi : i < bs.length)
    (hp : parseReceipt b = none) :
    allParsed (bs.set i b) = none := by
  induction bs generalizing i rs with
  | nil => simp at hi
  | cons x t ih =>
    unfold allParsed at hall
    cases hx : parseReceipt x with
    | none => rw [hx] at hall; cases hall
    | some rx =>
      rw [hx] at hall
      cases ht : allParsed t with
      | none => rw [ht] at hall; cases hall
      | some rt =>
        rw [ht] at hall
        cases hall
        cases i with
        | zero =>
          simp only [List.set_cons_zero]
          unfold allParsed
          rw [hp]
        | succ i0 =>
          simp only [List.set_cons_succ]
          unfold allParsed
          rw [hx, ih ht (by simpa using hi)]

/-- Claim C1: for every receipt chain produced by a sequence of `append`
operations on one session, the `prev_hash` of each receipt equals the
content hash of its predecessor (the genesis constant for the first
receipt) and the `lamport_clock` values are strictly increasing along the
chain; and any chronological chain violating a link or clock condition is
flagged as invalid by the integrity checks (`chainErrs` is nonempty on
it, by contraposition). -/
theorem receipt_chain_link_and_clock_invariant {c : List Receipt}
    (h : Reachable c) :
    (∀ r, c.reverse.head? = some r → r.prev_hash = GENESIS) ∧
    List.Chain' linkRel c.reverse ∧
    (∀ l : List Receipt, chainErrs l = [] →
      (∀ r, l.head? = some r → r.prev_hash = GENESIS) ∧ List.Chain' linkRel l) := by
  obtain ⟨hchain, hsig, hgen⟩ := reachable_inv h
  refine ⟨?_, ?_, ?_⟩
  · intro r hr
    rw [List.head?_reverse] at hr
    exact hgen r hr
  · rw [List.chain'_reverse]
    exact hchain
  · intro l hl
    unfold chainErrs at hl
    rw [List.append_assoc, List.append_eq_nil] at hl
    obtain ⟨h1, hl2⟩ := hl
    rw [List.append_eq_nil] at hl2
    obtain ⟨h2, h3⟩ := hl2
    refine ⟨genesis_of_genErr_nil h1, ?_⟩
    cases l with
    | nil => exact List.chain'_nil
    | cons p t => exact chain_of_linkErrs_nil (i := 1) h2

/-- Claim C2: for every chain produced solely through `append`, verifying
the bundle produced by exporting that chain yields the verdict `pass`
with no errors — the round-trip integrity law of `verify` after
`export`. -/
theorem verify_export_roundtrip {c : List Receipt} (h : Reachable c) :
    (verifyBundle (exportBundle c)).verdict = "pass" ∧
    (verifyBundle (exportBundle c)).errors = [] := by
  have hparse : allParsed (exportBundle c) = some c.reverse := allParsed_export c.reverse
  have herrs : chainErrs c.reverse = [] := chainErrs_nil_of_reachable h
  unfold verifyBundle
  rw [hparse]
  simp [herrs]

/-- Claim C5: for every exported bundle of an append-produced chain and
every single-byte mutation of one serialized receipt inside it, verifying
the mutated bundle yields the verdict `fail` together with an error
string identifying the mutated receipt. -/
theorem verify_flags_mutated_receipt {c : List Receipt} (h : Reachable c)
    {i j : Nat} {z : Char}
    (hi : i < (exportBundle c).length)
    (hj : j < ((exportBundle c).getD i []).length)
    (hch : ((exportBundle c).getD i [])[j]? ≠ some z) :
    (verifyBundle ((exportBundle c).set i
        (((exportBundle c).getD i []).set j z))).verdict = "fail" ∧
    ∃ msg, errAt i msg ∈
      (verifyBundle ((exportBundle c).set i
        (((exportBundle c).getD i []).set j z))).errors := by
  have hi' : i < c.reverse.length := by
    simpa [exportBundle] using hi
  have hri : c.reverse[i]? = some c.reverse[i] := List.getElem?_eq_getElem hi'
  have hentry : (exportBundle c).getD i [] = serializeReceipt c.reverse[i] := by
    rw [exportBundle, List.getD_eq_getElem?_getD, List.getElem?_map, hri]
    rfl
  have hsigri : sigOkB c.reverse[i] = true := by
    obtain ⟨-, hsig, -⟩ := reachable_inv h
    exact hsig _ (List.mem_reverse.mp (List.getElem_mem hi'))
  rw [hentry] at hj hch ⊢
  cases hp : parseReceipt ((serializeReceipt c.reverse[i]).set j z) with
  | none =>
    have hAP : allParsed ((exportBundle c).set i
        ((serializeReceipt c.reverse[i]).set j z)) = none :=
      allParsed_set_none (allParsed_export c.reverse) hi hp
    unfold verifyBundle
    rw [hAP]
    refine ⟨rfl, "malformed", ?_⟩
    have hBi' : ((exportBundle c).set i
        ((serializeReceipt c.reverse[i]).set j z))[i]? =
        some ((serializeReceipt c.reverse[i]).set j z) :=
      List.getElem?_set_eq_of_lt _ hi
    have := parseErrs_mem (k := 0) hBi' hp
    simpa using this
  | some r' =>
    have hser : serializeReceipt r' = (serializeReceipt c.reverse[i]).set j z :=
      parseReceipt_sound hp
    have hsig' : sigOkB r' = false := mutation_breaks_receipt hj hch hser hsigri
    have hAP : allParsed ((exportBundle c).set i
        ((serializeReceipt c.reverse[i]).set j z)) =
        some (c.reverse.set i r') :=
      allParsed_set_some (allParsed_export c.reverse) hp
    have hri' : (c.reverse.set i r')[i]? = some r' :=
      List.getElem?_set_eq_of_lt _ hi'
    have hmem : errAt i "signature" ∈ sigErrs 0 (c.reverse.set i r') := by
      have := sigErrs_mem (k := 0) hri' hsig'
      simpa using this
    have hmemC : errAt i "signature" ∈ chainErrs (c.reverse.set i r') := by
      unfold chainErrs
      rw [List.append_assoc, List.mem_append]
      right
      rw [List.mem_append]
      right
      exact hmem
    have hne : chainErrs (c.reverse.set i r') ≠ [] := List.ne_nil_of_mem hmemC
    unfold verifyBundle
    rw [hAP]
    refine ⟨?_, "signature", ?_⟩
    · simp [hne]
    · simpa using hmemC

theorem reasonCodeFromWire_unknown {s : String}
    (h : ∀ rc : ReasonCode, s ≠ reasonCodeToWire rc) :
    reasonCodeFromWire s = none := by
  have h1 : ¬ (s = "ALLOW") := h .Allow
  have h2 : ¬ (s = "DENY_TOOL_NOT_FOUND") := h .DenyToolNotFound
  have h3 : ¬ (s = "DENY_SCHEMA_MISMATCH") := h .DenySchemaMismatch
  have h4 : ¬ (s = "DENY_OUTPUT_DRIFT") := h .DenyOutputDrift
  have h5 : ¬ (s = "DENY_BUDGET_EXCEEDED") := h .DenyBudgetExceeded
  have h6 : ¬ (s = "DENY_APPROVAL_REQUIRED") := h .DenyApprovalRequired
  have h7 : ¬ (s = "DENY_APPROVAL_TIMEOUT") := h .DenyApprovalTimeout
  have h8 : ¬ (s = "DENY_SANDBOX_TRAP") := h .DenySandboxTrap
  have h9 : ¬ (s = "DENY_GAS_EXHAUSTION") := h .DenyGasExhaustion
  have h10 : ¬ (s = "DENY_TIME_LIMIT") := h .DenyTimeLimit
  have h11 : ¬ (s = "DENY_MEMORY_LIMIT") := h .DenyMemoryLimit
  have h12 : ¬ (s = "DENY_POLICY_VIOLATION") := h .DenyPolicyViolation
  have h13 : ¬ (s = "DENY_TRUST_KEY_REVOKED") := h .DenyTrustKeyRevoked
  have h14 : ¬ (s = "DENY_IDEMPOTENCY_DUPLICATE") := h .DenyIdempotencyDuplicate
  have h15 : ¬ (s = "ERROR_INTERNAL") := h .ErrorInternal
  unfold reasonCodeFromWire
  rw [if_neg h1, if_neg h2, if_neg h3, if_neg h4, if_neg h5, if_neg h6,
    if_neg h7, if_neg h8, if_neg h9, if_neg h10, if_neg h11, if_neg h12,
    if_neg h13, if_neg h14, if_neg h15]

/-- Claim C3: every string that is not one of the fixed wire identifiers
fails to deserialize as a `ReasonCode` (`none`), never decodes to
`Allow`, and any error body carrying it surfaces at the client with
`ErrorInternal` (fail closed). -/
theorem unknown_reason_code_fails_closed (s : String)
    (h : ∀ rc : ReasonCode, s ≠ reasonCodeToWire rc) :
    reasonCodeFromWire s = none ∧
    reasonCodeFromWire s ≠ some ReasonCode.Allow ∧
    ∀ (st : Nat) (message ety code : String)
      (dt : Option (List (String × String))),
      (checkFailure st (parseHelmError message ety code s dt)).reason_code =
        ReasonCode.ErrorInternal := by
  have hnone : reasonCodeFromWire s = none := reasonCodeFromWire_unknown h
  refine ⟨hnone, by simp [hnone], ?_⟩
  intro st message ety code dt
  simp [parseHelmError, hnone, checkFailure]

/-- Claim C4: a submission whose signature verifies against the claimed
public key, made at or before the deadline (with any issued challenge
matched), moves a pending decision to `APPROVED` with a receipt carrying
`ALLOW`; any submission after the deadline moves it to `TIMED_OUT` with a
receipt carrying `DENY_APPROVAL_TIMEOUT`; every submission on a pending
decision resolves it with exactly one receipt (never zero), and a
resolved decision is never changed by any later event (never two). -/
theorem approval_state_machine_correct :
    (∀ (chain : List Receipt) (d : DecisionState) (req : ApprovalRequest) (now : Nat),
      d.status = ApprovalStatus.pendingApproval →
      now ≤ d.info.deadline →
      sigVerifies req = true →
      req.intent_hash = d.info.intent_hash →
      challengeOk d.info req = true →
      (approvalStep chain d (.submit req now)).status = ApprovalStatus.approved ∧
      ∃ r, (approvalStep chain d (.submit req now)).receipt = some r ∧
        r.reason_code = "ALLOW") ∧
    (∀ (chain : List Receipt) (d : DecisionState) (req : ApprovalRequest) (now : Nat),
      d.status = ApprovalStatus.pendingApproval →
      d.info.deadline < now →
      (approvalStep chain d (.submit req now)).status = ApprovalStatus.timedOut ∧
      ∃ r, (approvalStep chain d (.submit req now)).receipt = some r ∧
        r.reason_code = "DENY_APPROVAL_TIMEOUT") ∧
    (∀ (chain : List Receipt) (d : DecisionState) (req : ApprovalRequest) (now : Nat),
      d.status = ApprovalStatus.pendingApproval →
      ((approvalStep chain d (.submit req now)).receipt).isSome = true ∧
      (approvalStep chain d (.submit req now)).status ≠ ApprovalStatus.pendingApproval) ∧
    (∀ (chain : List Receipt) (d : DecisionState) (e : ApprovalEvent),
      d.status ≠ ApprovalStatus.pendingApproval →
      approvalStep chain d e = d) := by
  refine ⟨?_, ?_, ?_, ?_⟩
  · intro chain d req now hp htime hsig hintent hchal
    simp only [approvalStep, hp]
    rw [if_neg (Nat.not_lt.mpr htime), if_pos ⟨hsig, hintent, hchal⟩]
    exact ⟨rfl, _, rfl, rfl⟩
  · intro chain d req now hp htime
    simp only [approvalStep, hp]
    rw [if_pos htime]
    exact ⟨rfl, _, rfl, rfl⟩
  · intro chain d req now hp
    simp only [approvalStep, hp]
    split_ifs <;> simp [finalizeWith]
  · intro chain d e hp
    cases hs : d.status with
    | pendingApproval => exact absurd hs hp
    | approved => simp [approvalStep, hs]
    | timedOut => simp [approvalStep, hs]
    | rejected => simp [approvalStep, hs]

/-- Claim C6: every error surfaced by a client operation carries a
taxonomy `reason_code`: transport failures and unparseable bodies map to
`ErrorInternal`, and a parsed body's `reason_code` is exactly the value
its wire string deserializes to. -/
theorem boundary_errors_carry_taxonomy_code :
    (∀ (α : Type) (m : String),
      clientCall (α := α) (.transportErr m) =
        .error ⟨0, m, ReasonCode.ErrorInternal⟩) ∧
    (∀ (α : Type) (st : Nat) (d : HelmErrorDetail),
      clientCall (α := α) (.failure st (some ⟨d⟩)) =
        .error ⟨st, d.message, d.reason_code⟩) ∧
    (∀ (α : Type) (st : Nat),
      clientCall (α := α) (.failure st none) =
        .error ⟨st, "unknown error", ReasonCode.ErrorInternal⟩) ∧
    (∀ (st : Nat) (message ety code s : String)
      (dt : Option (List (String × String))),
      (checkFailure st (parseHelmError message ety code s dt)).reason_code =
        (reasonCodeFromWire s).getD ReasonCode.ErrorInternal) := by
  refine ⟨fun α m => rfl, fun α st d => rfl, fun α st => rfl, ?_⟩
  intro st message ety code s dt
  cases hw : reasonCodeFromWire s <;> simp [parseHelmError, hw, checkFailure]

/-- Claim C7: every conformance report satisfies `failed ≤ gates`, and
its verdict is `pass` exactly when `failed = 0`. -/
theorem conformance_failed_le_gates (report_id level : String)
    (gateResults : List (String × Bool)) :
    (runGates report_id level gateResults).failed ≤
      (runGates report_id level gateResults).gates ∧
    ((runGates report_id level gateResults).verdict = "pass" ↔
      (runGates report_id level gateResults).failed = 0) := by
  constructor
  · simp only [runGates]
    exact List.length_filter_le _ _
  · by_cases hf : (gateResults.filter (fun g => g.2 = false)).length = 0 <;>
      simp [runGates, hf]

/-- Claim C8: each `ReasonCode` serializes to exactly its fixed
uppercase-snake wire identifier, and distinct codes never share an
identifier (no reuse for a different meaning). -/
theorem reason_code_wire_strings_stable :
    reasonCodeToWire .Allow = "ALLOW" ∧
    reasonCodeToWire .DenyToolNotFound = "DENY_TOOL_NOT_FOUND" ∧
    reasonCodeToWire .DenySchemaMismatch = "DENY_SCHEMA_MISMATCH" ∧
    reasonCodeToWire .DenyOutputDrift = "DENY_OUTPUT_DRIFT" ∧
    reasonCodeToWire .DenyBudgetExceeded = "DENY_BUDGET_EXCEEDED" ∧
    reasonCodeToWire .DenyApprovalRequired = "DENY_APPROVAL_REQUIRED" ∧
    reasonCodeToWire .DenyApprovalTimeout = "DENY_APPROVAL_TIMEOUT" ∧
    reasonCodeToWire .DenySandboxTrap = "DENY_SANDBOX_TRAP" ∧
    reasonCodeToWire .DenyGasExhaustion = "DENY_GAS_EXHAUSTION" ∧
    reasonCodeToWire .DenyTimeLimit = "DENY_TIME_LIMIT" ∧
    reasonCodeToWire .DenyMemoryLimit = "DENY_MEMORY_LIMIT" ∧
    reasonCodeToWire .DenyPolicyViolation = "DENY_POLICY_VIOLATION" ∧
    reasonCodeToWire .DenyTrustKeyRevoked = "DENY_TRUST_KEY_REVOKED" ∧
    reasonCodeToWire .DenyIdempotencyDuplicate = "DENY_IDEMPOTENCY_DUPLICATE" ∧
    reasonCodeToWire .ErrorInternal = "ERROR_INTERNAL" ∧
    Function.Injective reasonCodeToWire := by
  refine ⟨rfl, rfl, rfl, rfl, rfl, rfl, rfl, rfl, rfl, rfl, rfl, rfl, rfl, rfl, rfl, ?_⟩
  intro a b hab
  revert hab
  revert a b
  decide

/-- Claim C9: deserializing the wire string of any `ReasonCode` yields
that same code (serialize-then-deserialize is the identity on the
taxonomy). -/
theorem reason_code_roundtrip (rc : ReasonCode) :
    reasonCodeFromWire (reasonCodeToWire rc) = some rc := by
  cases rc <;> decide

theorem dropWhile_head_not {p : Char → Bool} {l : List Char} {c : Char}
    (h : (l.dropWhile p).head? = some c) : p c = false := by
  induction l with
  | nil => cases h
  | cons x t ih =>
    by_cases hx : p x = true
    · rw [List.dropWhile_cons, if_pos hx] at h
      exact ih h
    · rw [List.dropWhile_cons, if_neg hx] at h
      simp only [List.head?_cons, Option.some.injEq] at h
      rw [← h]
      exact Bool.eq_false_iff.mpr hx

/-- Claim C10: `HelmClient::new` stores the base URL with all trailing
slash characters removed — the stored base plus a run of slashes
reconstructs the input, the stored base never ends in a slash, every
request URL is the trimmed base followed by the path, and in particular
clients built from `http://host` and `http://host/` build identical
URLs. -/
theorem base_url_trailing_slashes_trimmed :
    (∀ base path, urlOf (newClient base) path = trimEndSlashes base ++ path) ∧
    (∀ base : String, ∃ k : Nat,
      base = trimEndSlashes base ++ String.mk (List.replicate k '/')) ∧
    (∀ (base : String) (c : Char),
      (trimEndSlashes base).data.getLast? = some c → c ≠ '/') ∧
    (∀ path, urlOf (newClient "http://host") path =
      urlOf (newClient "http://host/") path) := by
  refine ⟨fun base path => rfl, ?_, ?_, ?_⟩
  · intro base
    refine ⟨(base.data.reverse.takeWhile (fun c => c = '/')).length, ?_⟩
    have hsplit :
        base.data.reverse.takeWhile (fun c => c = '/') ++
          base.data.reverse.dropWhile (fun c => c = '/') = base.data.reverse :=
      List.takeWhile_append_dropWhile _ _
    have htake : base.data.reverse.takeWhile (fun c => c = '/') =
        List.replicate (base.data.reverse.takeWhile (fun c => c = '/')).length '/' := by
      refine List.eq_replicate_of_mem ?_
      intro b hb
      have := List.mem_takeWhile_imp hb
      simpa using this
    have hdata : base.data =
        (base.data.reverse.dropWhile (fun c => c = '/')).reverse ++
          List.replicate (base.data.reverse.takeWhile (fun c => c = '/')).length '/' := by
      conv_lhs => rw [← List.reverse_reverse base.data, ← hsplit]
      rw [List.reverse_append, ← htake]
      rw [htake, List.reverse_replicate, ← htake]
    calc base = String.mk base.data := rfl
    _ = String.mk ((base.data.reverse.dropWhile (fun c => c = '/')).reverse ++
          List.replicate
            (base.data.reverse.takeWhile (fun c => c = '/')).length '/') := by
        rw [← hdata]
    _ = trimEndSlashes base ++ String.mk (List.replicate
          (base.data.reverse.takeWhile (fun c => c = '/')).length '/') := rfl
  · intro base c hc
    rw [trimEndSlashes] at hc
    have hh : (base.data.reverse.dropWhile (fun x => x = '/')).head? = some c := by
      rw [← List.getLast?_reverse]
      exact hc
    have := dropWhile_head_not hh
    simpa using this
  · intro path
    rfl

theorem sampleChain1_reachable : Reachable sampleChain1 :=
  Reachable.snoc [] sampleBody1 Reachable.nil

theorem sampleChain2_reachable : Reachable sampleChain2 :=
  Reachable.snoc sampleChain1 sampleBody2 sampleChain1_reachable

/-- Witness for claim C1 at a concrete two-append chain. -/
theorem receipt_chain_link_and_clock_invariant_witness :
    List.Chain' linkRel sampleChain2.reverse :=
  (receipt_chain_link_and_clock_invariant sampleChain2_reachable).2.1

/-- Witness for claim C2 at a concrete two-append chain. -/
theorem verify_export_roundtrip_witness :
    (verifyBundle (exportBundle sampleChain2)).verdict = "pass" ∧
    (verifyBundle (exportBundle sampleChain2)).errors = [] :=
  verify_export_roundtrip sampleChain2_reachable

/-- Witness for claim C3 at the concrete unknown string `NOT_A_CODE`. -/
theorem unknown_reason_code_fails_closed_witness :
    reasonCodeFromWire "NOT_A_CODE" = none :=
  (unknown_reason_code_fails_closed "NOT_A_CODE" (by decide)).1

/-- Witness for claim C4 at a concrete pending decision: a valid
submission at time 5 approves with `ALLOW`, and one at time 11 times out
with `DENY_APPROVAL_TIMEOUT`. -/
theorem approval_state_machine_correct_witness :
    ((approvalStep [] samplePending (.submit sampleRequest 5)).status =
        ApprovalStatus.approved ∧
      ∃ r, (approvalStep [] samplePending (.submit sampleRequest 5)).receipt =
        some r ∧ r.reason_code = "ALLOW") ∧
    ((approvalStep [] samplePending (.submit sampleRequest 11)).status =
        ApprovalStatus.timedOut ∧
      ∃ r, (approvalStep [] samplePending (.submit sampleRequest 11)).receipt =
        some r ∧ r.reason_code = "DENY_APPROVAL_TIMEOUT") :=
  ⟨approval_state_machine_correct.1 [] samplePending sampleRequest 5
      rfl (by decide) (by decide) rfl rfl,
    approval_state_machine_correct.2.1 [] samplePending sampleRequest 11
      rfl (by decide)⟩

/-- Witness for claim C5: flipping byte 0 of the serialized receipt at
index 0 of a concrete exported bundle to `'Z'` makes verification fail. -/
theorem verify_flags_mutated_receipt_witness :
    (verifyBundle ((exportBundle sampleChain1).set 0
        (((exportBundle sampleChain1).getD 0 []).set 0 'Z'))).verdict = "fail" :=
  (verify_flags_mutated_receipt sampleChain1_reachable
    (i := 0) (j := 0) (z := 'Z') (by decide) (by decide) (by decide)).1

/-- Witness for claim C8: the injectivity component applied at a concrete
pair of equal wire strings. -/
theorem reason_code_wire_strings_stable_witness :
    ReasonCode.DenyTimeLimit = ReasonCode.DenyTimeLimit :=
  reason_code_wire_strings_stable.2.2.2.2.2.2.2.2.2.2.2.2.2.2.2
    (rfl : reasonCodeToWire .DenyTimeLimit = reasonCodeToWire .DenyTimeLimit)

/-- Witness for claim C10 at concrete base URLs. -/
theorem base_url_trailing_slashes_trimmed_witness :
    urlOf (newClient "http://host/") "/healthz" =
      trimEndSlashes "http://host/" ++ "/healthz" ∧
    ('t' : Char) ≠ '/' :=
  ⟨base_url_trailing_slashes_trimmed.1 "http://host/" "/healthz",
    base_url_trailing_slashes_trimmed.2.2.1 "http://host/" 't' (by decide)⟩
